import Mathlib

/-!
Verification of the il-vaticano motif counter (src/main.rs).

The program drives a PGN visitor over mainline half-moves. Before each
half-move is applied, a three-stage detector inspects the current position:

1. a fixed bitboard band (files d, e, f without the back ranks) must meet the
   mover's bishops,
2. some rank with index 1..6 must carry at least two of the mover's bishops and
   two of the opponent's pawns,
3. the board FEN must contain the run "bPPb" (black to move) or "BppB" (white
   to move).

The embedding below models the board, the bitboard arithmetic, the board-FEN
rendering of the external rules engine, the visitor callbacks and the driver
loop, and proves the specified properties about them.
-/

namespace IlVaticano

/-- Side color, as in the rules engine. -/
inductive Color where
  | white
  | black
deriving DecidableEq

/-- The other color. -/
def Color.opposite : Color → Color
  | .white => .black
  | .black => .white

/-- Piece role, as in the rules engine. -/
inductive Role where
  | pawn
  | knight
  | bishop
  | rook
  | queen
  | king
deriving DecidableEq

/-- A piece is a color plus a role. -/
structure Piece where
  color : Color
  role : Role
deriving DecidableEq

/-- Modelled from the spec: the rules engine's board is a per-square piece
assignment; squares are indexed 0..63 with square = 8 * rank + file (a1 = 0),
matching the bit indexing of the program's bitboard constants. -/
def Board := Fin 64 → Option Piece

/-- Modelled from the spec: the position state the visitor consumes — piece
placement plus side to move (the further metadata of the engine's position,
castling rights and en passant, is never read by the program). -/
structure Chess where
  board : Board
  turn : Color

/-- Role of the starting back rank at a given file index. -/
def backRankRole (f : Nat) : Role :=
  if f = 0 ∨ f = 7 then .rook
  else if f = 1 ∨ f = 6 then .knight
  else if f = 2 ∨ f = 5 then .bishop
  else if f = 3 then .queen
  else .king

/-- Modelled from the spec: the standard initial arrangement produced by the
rules engine's default position (white to move). -/
def Chess.default : Chess where
  board := fun s =>
    let r := s.val / 8
    let f := s.val % 8
    if r = 0 then some ⟨.white, backRankRole f⟩
    else if r = 1 then some ⟨.white, .pawn⟩
    else if r = 6 then some ⟨.black, .pawn⟩
    else if r = 7 then some ⟨.black, backRankRole f⟩
    else none
  turn := .white

/-- Bitboard of the squares holding a given piece (a bitboard is semantically
a set of squares; intersection and population count below mirror the
program's bitboard operations). -/
def byPiece (b : Board) (pc : Piece) : Finset (Fin 64) :=
  Finset.univ.filter fun s => b s = some pc

/-- The mover's pieces of a role (shakmaty's our). -/
def Chess.our (pos : Chess) (r : Role) : Finset (Fin 64) :=
  byPiece pos.board ⟨pos.turn, r⟩

/-- The opponent's pieces of a role (shakmaty's their). -/
def Chess.their (pos : Chess) (r : Role) : Finset (Fin 64) :=
  byPiece pos.board ⟨pos.turn.opposite, r⟩

/-- The squares of the bitboard of one rank (shakmaty's from_rank). -/
def fromRank (r : Nat) : Finset (Fin 64) :=
  Finset.univ.filter fun s => s.val / 8 = r

/-- The program's constant band bitboard, taken verbatim from the source as
the square set of the bits of 15824412808329216. -/
def BISHOP_MASK : Finset (Fin 64) :=
  Finset.univ.filter fun s => Nat.testBit 15824412808329216 s.val

/-- The square set the spec describes for the band: files d, e, f (indices
3, 4, 5) excluding the two back ranks. -/
def pieceBand : Finset (Fin 64) :=
  Finset.univ.filter fun s =>
    (s.val % 8 = 3 ∨ s.val % 8 = 4 ∨ s.val % 8 = 5) ∧ s.val / 8 ≠ 0 ∧ s.val / 8 ≠ 7

/-- FEN letter of a piece: role letter, upper-cased for white. -/
def pieceChar : Piece → Char
  | ⟨.white, .pawn⟩ => 'P'
  | ⟨.white, .knight⟩ => 'N'
  | ⟨.white, .bishop⟩ => 'B'
  | ⟨.white, .rook⟩ => 'R'
  | ⟨.white, .queen⟩ => 'Q'
  | ⟨.white, .king⟩ => 'K'
  | ⟨.black, .pawn⟩ => 'p'
  | ⟨.black, .knight⟩ => 'n'
  | ⟨.black, .bishop⟩ => 'b'
  | ⟨.black, .rook⟩ => 'r'
  | ⟨.black, .queen⟩ => 'q'
  | ⟨.black, .king⟩ => 'k'

/-- Digit character for an empty-square run length. -/
def digitChar (n : Nat) : Char := Char.ofNat (48 + n)

/-- Modelled from the spec: one rank of the board-FEN rendering of the rules
engine — files scanned a to h, empty squares run-length encoded as digits,
pieces as case-coded letters. The accumulator holds the pending empty run. -/
def rankFenGo : List (Option Piece) → Nat → List Char
  | [], 0 => []
  | [], n + 1 => [digitChar (n + 1)]
  | none :: rest, n => rankFenGo rest (n + 1)
  | some p :: rest, 0 => pieceChar p :: rankFenGo rest 0
  | some p :: rest, n + 1 => digitChar (n + 1) :: pieceChar p :: rankFenGo rest 0

/-- The encoding of one rank, started with an empty pending run. -/
def rankFen (row : List (Option Piece)) : List Char := rankFenGo row 0

/-- The pieces of one rank, files a to h. -/
def boardRow (b : Board) (r : Fin 8) : List (Option Piece) :=
  [b ⟨8 * r.val + 0, by omega⟩, b ⟨8 * r.val + 1, by omega⟩,
   b ⟨8 * r.val + 2, by omega⟩, b ⟨8 * r.val + 3, by omega⟩,
   b ⟨8 * r.val + 4, by omega⟩, b ⟨8 * r.val + 5, by omega⟩,
   b ⟨8 * r.val + 6, by omega⟩, b ⟨8 * r.val + 7, by omega⟩]

/-- Rank encodings joined with the FEN rank separator. -/
def joinRanks : List (List Char) → List Char
  | [] => []
  | [row] => row
  | row :: rest => row ++ '/' :: joinRanks rest

/-- Modelled from the spec: the board FEN the rules engine renders — ranks from
the eighth down to the first, separated by the slash (the program passes an
empty promoted bitboard, so no promotion marks appear). -/
def board_fen (b : Board) : List Char :=
  joinRanks (((List.finRange 8).reverse).map fun r => rankFen (boardRow b r))

/-- The 4-character run the confirmation stage searches for, oriented per the
mover's color. -/
def patternFor : Color → List Char
  | .black => ['b', 'P', 'P', 'b']
  | .white => ['B', 'p', 'p', 'B']

/-- Modelled from the spec: a resolved legal move of the rules engine, seen
through the only operation the program performs with it — unchecked
application to a position. -/
structure Move where
  apply : Chess → Chess

/-- Modelled from the spec: a SAN move token, seen through the only operation
the program performs with it — resolution against a position, which fails
exactly when the token is not a legal move there. -/
structure San where
  resolve : Chess → Option Move

/-- The pgn-reader Skip answer of begin_variation. -/
structure Skip where
  skip : Bool

/-- The visitor state: the four counters and the current position (the source's
wall-clock start field feeds only the printed reports and carries no counted
state, so it is not modelled). -/
structure IlVaticanoCounter where
  games : Nat
  sans : Nat
  ilvaticanos : Nat
  pos : Chess
  passed : Nat

/-- IlVaticanoCounter::new. -/
def IlVaticanoCounter.new : IlVaticanoCounter :=
  { games := 0, sans := 0, ilvaticanos := 0, pos := Chess.default, passed := 0 }

/-- IlVaticanoCounter::make_move: resolve the token against the current
position; on failure the run aborts (None); on success play the move
unchecked. -/
def IlVaticanoCounter.make_move (c : IlVaticanoCounter) (tok : San) :
    Option IlVaticanoCounter :=
  (tok.resolve c.pos).map fun m => { c with pos := m.apply c.pos }

/-- The rank loop of stage 2: some rank index 1..6 carries at least two mover
bishops and two opponent pawns. -/
def ranksCheck (pos : Chess) : Bool :=
  (List.range' 1 6).any fun r =>
    decide (2 ≤ ((pos.our .bishop) ∩ fromRank r).card ∧
      2 ≤ ((pos.their .pawn) ∩ fromRank r).card)

/-- The stage-3 string test of the source: the board FEN contains the
color-oriented 4-character run. -/
def fenMatch (pos : Chess) : Prop :=
  (pos.turn = .black ∧ ['b', 'P', 'P', 'b'] <:+: board_fen pos.board) ∨
  (pos.turn = .white ∧ ['B', 'p', 'p', 'B'] <:+: board_fen pos.board)

instance (pos : Chess) : Decidable (fenMatch pos) := by
  unfold fenMatch; infer_instance

/-- Visitor::san, transcribed from the source: count the half-move, run the
three detector stages with early exits, then make the move. -/
def IlVaticanoCounter.san (c : IlVaticanoCounter) (tok : San) :
    Option IlVaticanoCounter :=
  let c := { c with sans := c.sans + 1 }
  if (c.pos.our .bishop) ∩ BISHOP_MASK = ∅ then
    c.make_move tok
  else if ¬ ranksCheck c.pos then
    c.make_move tok
  else
    let c := { c with passed := c.passed + 1 }
    let c := if fenMatch c.pos then { c with ilvaticanos := c.ilvaticanos + 1 } else c
    c.make_move tok

/-- Visitor::begin_game: reset the position to the default arrangement. -/
def IlVaticanoCounter.begin_game (c : IlVaticanoCounter) : IlVaticanoCounter :=
  { c with pos := Chess.default }

/-- Visitor::begin_variation: always Skip(true), state untouched. -/
def IlVaticanoCounter.begin_variation (c : IlVaticanoCounter) :
    IlVaticanoCounter × Skip :=
  (c, ⟨true⟩)

/-- Visitor::end_game: count the game (the periodic progress print reads but
never writes the counters). -/
def IlVaticanoCounter.end_game (c : IlVaticanoCounter) : IlVaticanoCounter :=
  { c with games := c.games + 1 }

/-- The three detector outcomes of the spec. -/
inductive Outcome where
  | skip
  | passOnly
  | confirmed
deriving DecidableEq

/-- The detector, factored out of Visitor::san: the three stages with early
exits, on the position as it stands. -/
def detect (pos : Chess) : Outcome :=
  if (pos.our .bishop) ∩ BISHOP_MASK = ∅ then .skip
  else if ¬ ranksCheck pos then .skip
  else if fenMatch pos then .confirmed
  else .passOnly

/-- The counter update Visitor::san performs for each detector outcome. -/
def applyCounts (c : IlVaticanoCounter) : Outcome → IlVaticanoCounter
  | .skip => { c with sans := c.sans + 1 }
  | .passOnly => { c with sans := c.sans + 1, passed := c.passed + 1 }
  | .confirmed =>
      { c with sans := c.sans + 1, passed := c.passed + 1,
               ilvaticanos := c.ilvaticanos + 1 }

/-- Visitor::san in closed form: counters are updated per the detector outcome
of the pre-move position, and the resolved move is applied to that position. -/
theorem san_run (c : IlVaticanoCounter) (tok : San) :
    c.san tok = (tok.resolve c.pos).map fun m =>
      { applyCounts c (detect c.pos) with pos := m.apply c.pos } := by
  unfold IlVaticanoCounter.san detect IlVaticanoCounter.make_move applyCounts
  by_cases h1 : (c.pos.our .bishop) ∩ BISHOP_MASK = ∅
  · simp [h1]
  · by_cases h2 : ranksCheck c.pos
    · by_cases h3 : fenMatch c.pos
      · simp [h1, h2, h3]
      · simp [h1, h2, h3]
    · simp [h1, h2]

/-- Modelled from the spec: a movetext item the notation stream driver meets —
either a mainline half-move token, or a parenthesised side-line holding its own
movetext sequence (which can nest). -/
inductive MoveText where
  | sanTok (tok : San)
  | variation (line : List MoveText)

/-- Modelled from the spec: the driver walks the movetext; each half-move token
is pushed through Visitor::san (failure aborts), and at each side-line the
driver consults Visitor::begin_variation, skipping the whole sub-tree when the
answer is Skip(true). -/
def runMoves (c : IlVaticanoCounter) : List MoveText → Option IlVaticanoCounter
  | [] => some c
  | .sanTok tok :: rest => (c.san tok).bind fun c' => runMoves c' rest
  | .variation line :: rest =>
      let (c', sk) := c.begin_variation
      if sk.skip then runMoves c' rest
      else (runMoves c' line).bind fun c'' => runMoves c'' rest

/-- A game: its movetext sequence. -/
structure Game where
  moves : List MoveText

/-- Modelled from the spec: the driver's handling of one game — begin_game,
the movetext walk, end_game. -/
def runGame (c : IlVaticanoCounter) (g : Game) : Option IlVaticanoCounter :=
  (runMoves c.begin_game g.moves).map IlVaticanoCounter.end_game

/-- Modelled from the spec: BufferedReader::read_all drives the visitor over
every game of the file in order. -/
def read_all (c : IlVaticanoCounter) : List Game → Option IlVaticanoCounter
  | [] => some c
  | g :: gs => (runGame c g).bind fun c' => read_all c' gs

/-- Main: each file argument is processed with a fresh counter and reported as
the pair of its path and its final counter state; a failure anywhere aborts
the whole run. -/
def processFiles : List (String × List Game) → Option (List (String × IlVaticanoCounter))
  | [] => some []
  | (path, gs) :: rest =>
      (read_all IlVaticanoCounter.new gs).bind fun st =>
        (processFiles rest).map fun rs => (path, st) :: rs

/-- Movetext with every side-line removed. -/
def stripVariations : List MoveText → List MoveText
  | [] => []
  | .sanTok tok :: rest => .sanTok tok :: stripVariations rest
  | .variation _ :: rest => stripVariations rest

/-- No pawn of either color stands on a back rank; true of every position
reachable by legal play, which is all the positions the visitor ever holds
under the program's input-trust assumption. -/
def pawnsOffBackRanks (b : Board) : Prop :=
  ∀ s : Fin 64, (b s = some ⟨.white, .pawn⟩ ∨ b s = some ⟨.black, .pawn⟩) →
    s.val / 8 ≠ 0 ∧ s.val / 8 ≠ 7

instance (b : Board) : Decidable (pawnsOffBackRanks b) := by
  unfold pawnsOffBackRanks; infer_instance

/-- The counter inequality of the spec. -/
def countersInv (c : IlVaticanoCounter) : Prop :=
  c.ilvaticanos ≤ c.passed ∧ c.passed ≤ c.sans

/-- The per-half-move counter increments between two states. -/
def delta (c c' : IlVaticanoCounter) : Nat × Nat × Nat :=
  (c'.sans - c.sans, c'.passed - c.passed, c'.ilvaticanos - c.ilvaticanos)

/-- The existential reading of the stage-2 rank loop. -/
def rankWitness (pos : Chess) : Prop :=
  ∃ r ∈ Finset.Icc 1 6, 2 ≤ ((pos.our .bishop) ∩ fromRank r).card ∧
    2 ≤ ((pos.their .pawn) ∩ fromRank r).card

/-- The rank loop succeeds exactly when some rank index 1..6 carries two mover
bishops and two opponent pawns. -/
theorem ranksCheck_iff (pos : Chess) : ranksCheck pos = true ↔ rankWitness pos := by
  unfold ranksCheck rankWitness
  simp only [List.any_eq_true, decide_eq_true_eq, List.mem_range'_1, Finset.mem_Icc]
  constructor
  · rintro ⟨r, hr, h⟩
    exact ⟨r, by omega, h⟩
  · rintro ⟨r, hr, h⟩
    exact ⟨r, by omega, h⟩

/-- A prefix is an infix. -/
theorem pref_inf {l m : List Char} (h : l <+: m) : l <:+: m := by
  rcases h with ⟨t, ht⟩
  exact ⟨[], t, ht⟩

/-- An infix survives extension on the left. -/
theorem inf_ext_left (x : List Char) {l m : List Char} (h : l <:+: m) :
    l <:+: x ++ m := by
  rcases h with ⟨s, t, ht⟩
  exact ⟨x ++ s, t, by rw [← ht]; simp⟩

/-- An infix survives extension on the right. -/
theorem inf_ext_right (z : List Char) {l m : List Char} (h : l <:+: m) :
    l <:+: m ++ z := by
  rcases h with ⟨s, t, ht⟩
  exact ⟨s, t ++ z, by rw [← ht]; simp⟩

/-- A prefix of a separated concatenation that avoids the separator is a
prefix of the left part. -/
theorem pref_of_sep {sep : Char} {l x y : List Char} (hs : sep ∉ l)
    (h : l <+: x ++ sep :: y) : l <+: x := by
  induction x generalizing l with
  | nil =>
    cases l with
    | nil => exact List.nil_prefix
    | cons a l' =>
      rcases h with ⟨t, ht⟩
      simp only [List.cons_append, List.nil_append] at ht
      injection ht with h1 _
      have hm : sep ∈ a :: l' := by rw [h1]; exact List.mem_cons_self _ _
      exact absurd hm hs
  | cons b x' ih =>
    cases l with
    | nil => exact List.nil_prefix
    | cons a l' =>
      rcases h with ⟨t, ht⟩
      simp only [List.cons_append] at ht
      injection ht with h1 h2
      subst h1
      have hl' : l' <+: x' := ih (fun hm => hs (List.mem_cons_of_mem _ hm)) ⟨t, h2⟩
      rcases hl' with ⟨u, hu⟩
      exact ⟨u, by rw [List.cons_append, hu]⟩

/-- An infix of a separated concatenation that avoids the separator lies in
one of the two parts. -/
theorem split_at_sep {sep : Char} {l x y : List Char} (hs : sep ∉ l)
    (h : l <:+: x ++ sep :: y) : l <:+: x ∨ l <:+: y := by
  induction x with
  | nil =>
    simp only [List.nil_append] at h
    rcases List.infix_cons_iff.mp h with hp | hi
    · cases l with
      | nil => exact Or.inl ⟨[], [], rfl⟩
      | cons a l' =>
        rcases hp with ⟨t, ht⟩
        simp only [List.cons_append] at ht
        injection ht with h1 _
        have hm : sep ∈ a :: l' := by rw [h1]; exact List.mem_cons_self _ _
        exact absurd hm hs
    · exact Or.inr hi
  | cons b x' ih =>
    rw [List.cons_append] at h
    rcases List.infix_cons_iff.mp h with hp | hi
    · have := pref_of_sep hs (by rw [List.cons_append]; exact hp)
      exact Or.inl (pref_inf this)
    · rcases ih hi with h1 | h2
      · exact Or.inl (inf_ext_left [b] h1)
      · exact Or.inr h2

/-- A nonempty slash-free infix of the joined rank encodings is an infix of a
single rank encoding. -/
theorem joinRanks_decompose {l : List Char} {rows : List (List Char)}
    (hne : l ≠ []) (hs : '/' ∉ l) (h : l <:+: joinRanks rows) :
    ∃ row ∈ rows, l <:+: row := by
  induction rows with
  | nil =>
    have : l.length ≤ 0 := by simpa [joinRanks] using h.length_le
    exact absurd (List.eq_nil_of_length_eq_zero (by omega)) hne
  | cons row rest ih =>
    cases rest with
    | nil => exact ⟨row, by simp, by simpa [joinRanks] using h⟩
    | cons row2 rest' =>
      rw [show joinRanks (row :: row2 :: rest') = row ++ '/' :: joinRanks (row2 :: rest')
        from rfl] at h
      rcases split_at_sep hs h with h1 | h2
      · exact ⟨row, by simp, h1⟩
      · rcases ih h2 with ⟨r, hr, hlr⟩
        exact ⟨r, List.mem_cons_of_mem _ hr, hlr⟩

/-- An infix of one of the rank encodings is an infix of the join. -/
theorem joinRanks_contains {l row : List Char} {rows : List (List Char)}
    (hrow : row ∈ rows) (h : l <:+: row) : l <:+: joinRanks rows := by
  induction rows with
  | nil => simp at hrow
  | cons row1 rest ih =>
    rcases List.mem_cons.mp hrow with rfl | hmem
    · cases rest with
      | nil => simpa [joinRanks] using h
      | cons r2 rest' =>
        rw [show joinRanks (row :: r2 :: rest') = row ++ '/' :: joinRanks (r2 :: rest')
          from rfl]
        exact inf_ext_right _ h
    · cases rest with
      | nil => simp at hmem
      | cons r2 rest' =>
        rw [show joinRanks (row1 :: r2 :: rest') = row1 ++ '/' :: joinRanks (r2 :: rest')
          from rfl]
        exact inf_ext_left row1 (inf_ext_left ['/'] (ih hmem))

/-- Emitting a piece flushes the pending empty run: the encoding splits around
any occupied square. -/
theorem rankFenGo_flush (pre : List (Option Piece)) (p : Piece)
    (rest : List (Option Piece)) :
    ∀ acc, rankFenGo (pre ++ some p :: rest) acc =
      rankFenGo pre acc ++ pieceChar p :: rankFenGo rest 0 := by
  induction pre with
  | nil => intro acc; cases acc <;> simp [rankFenGo]
  | cons e pre' ih =>
    intro acc
    cases e with
    | none => simpa [rankFenGo] using ih (acc + 1)
    | some q => cases acc <;> simp [rankFenGo, ih]

/-- With a positive pending run the encoding starts with a digit, bounded by
the run plus the remaining squares. -/
theorem rankFenGo_pos_head (rest : List (Option Piece)) :
    ∀ n, ∃ k t, 1 ≤ k ∧ k ≤ n + 1 + rest.length ∧
      rankFenGo rest (n + 1) = digitChar k :: t := by
  induction rest with
  | nil => intro n; exact ⟨n + 1, [], by omega, by simp, rfl⟩
  | cons e rest' ih =>
    intro n
    cases e with
    | none =>
      rcases ih (n + 1) with ⟨k, t, h1, h2, h3⟩
      exact ⟨k, t, h1, by simp; omega, by simpa [rankFenGo] using h3⟩
    | some p =>
      exact ⟨n + 1, pieceChar p :: rankFenGo rest' 0, by omega, by simp, rfl⟩

/-- A character list avoiding every run-length digit that can appear in a rank
encoding. -/
def NoDigits (l : List Char) : Prop := ∀ k, 1 ≤ k → k ≤ 8 → digitChar k ∉ l

/-- A nonempty digit-free prefix of a rank encoding with no pending run reads
off an initial stretch of occupied squares. -/
theorem prefix_decode :
    ∀ (rest : List (Option Piece)) (l : List Char), l ≠ [] → NoDigits l →
      rest.length ≤ 8 → l <+: rankFenGo rest 0 →
      ∃ (ps : List Piece) (rest₂ : List (Option Piece)),
        rest = ps.map some ++ rest₂ ∧ ps.map pieceChar = l := by
  intro rest
  induction rest with
  | nil =>
    intro l hne hnd hlen hp
    rcases hp with ⟨t, ht⟩
    simp only [rankFenGo] at ht
    exact absurd (List.append_eq_nil.mp ht).1 hne
  | cons e rest' ih =>
    intro l hne hnd hlen hp
    cases e with
    | none =>
      rcases rankFenGo_pos_head rest' 0 with ⟨k, t, hk1, hk2, heq⟩
      rw [show rankFenGo (none :: rest') 0 = rankFenGo rest' 1 from rfl, heq] at hp
      cases l with
      | nil => exact absurd rfl hne
      | cons a l' =>
        rcases hp with ⟨u, hu⟩
        simp only [List.cons_append] at hu
        injection hu with h1 _
        have hm : digitChar k ∈ a :: l' := by rw [h1]; exact List.mem_cons_self _ _
        exact absurd hm (hnd k hk1 (by simp at hlen; omega))
    | some p =>
      cases l with
      | nil => exact absurd rfl hne
      | cons a l' =>
        rcases hp with ⟨u, hu⟩
        rw [show rankFenGo (some p :: rest') 0 = pieceChar p :: rankFenGo rest' 0
          from rfl] at hu
        simp only [List.cons_append] at hu
        injection hu with h1 h2
        by_cases hl' : l' = []
        · subst hl'
          exact ⟨[p], rest', rfl, by simp [h1]⟩
        · rcases ih l' hl' (fun k a b hm => hnd k a b (List.mem_cons_of_mem _ hm))
            (by simp at hlen; omega) ⟨u, h2⟩ with ⟨ps, r2, hr, hmap⟩
          exact ⟨p :: ps, r2, by simp [hr], by simp [hmap, h1]⟩

/-- A nonempty digit-free infix of a rank encoding reads off a contiguous
stretch of occupied squares. -/
theorem infix_decode :
    ∀ (row : List (Option Piece)) (acc : Nat) (l : List Char), l ≠ [] →
      NoDigits l → acc + row.length ≤ 8 → l <:+: rankFenGo row acc →
      ∃ (pre : List (Option Piece)) (ps : List Piece) (rest₂ : List (Option Piece)),
        row = pre ++ ps.map some ++ rest₂ ∧ ps.map pieceChar = l := by
  intro row
  induction row with
  | nil =>
    intro acc l hne hnd hlen hi
    cases acc with
    | zero =>
      have : l.length ≤ 0 := by simpa [rankFenGo] using hi.length_le
      exact absurd (List.eq_nil_of_length_eq_zero (by omega)) hne
    | succ n =>
      rcases hi with ⟨s, t, hst⟩
      simp only [rankFenGo] at hst
      have hlens := congrArg List.length hst
      simp at hlens
      have hl1 : 1 ≤ l.length := by
        cases l with
        | nil => exact absurd rfl hne
        | cons a l' => simp
      have hs0 : s = [] := List.eq_nil_of_length_eq_zero (by omega)
      have ht0 : t = [] := List.eq_nil_of_length_eq_zero (by omega)
      subst hs0; subst ht0
      simp only [List.nil_append, List.append_nil] at hst
      have hm : digitChar (n + 1) ∈ l := by
        rw [hst]; exact List.mem_cons_self _ _
      exact absurd hm (hnd (n + 1) (by omega) (by simp at hlen; omega))
  | cons e row' ih =>
    intro acc l hne hnd hlen hi
    cases e with
    | none =>
      rcases ih (acc + 1) l hne hnd (by simp at hlen ⊢; omega)
        (by simpa [rankFenGo] using hi) with ⟨pre, ps, r2, hr, hm⟩
      exact ⟨none :: pre, ps, r2, by simp [hr], hm⟩
    | some p =>
      have key : l <:+: pieceChar p :: rankFenGo row' 0 →
          ∃ (pre : List (Option Piece)) (ps : List Piece) (rest₂ : List (Option Piece)),
            (some p :: row' : List (Option Piece)) =
              pre ++ ps.map some ++ rest₂ ∧ ps.map pieceChar = l := by
        intro hi'
        rcases List.infix_cons_iff.mp hi' with hp | htail
        · cases l with
          | nil => exact absurd rfl hne
          | cons a l' =>
            rcases hp with ⟨u, hu⟩
            simp only [List.cons_append] at hu
            injection hu with h1 h2
            by_cases hl' : l' = []
            · subst hl'
              exact ⟨[], [p], row', rfl, by simp [h1]⟩
            · rcases prefix_decode row' l' hl'
                (fun k a b hm => hnd k a b (List.mem_cons_of_mem _ hm))
                (by simp at hlen; omega) ⟨u, h2⟩ with ⟨ps, r2, hr, hm⟩
              exact ⟨[], p :: ps, r2, by simp [hr], by simp [hm, h1]⟩
        · rcases ih 0 l hne hnd (by simp at hlen; omega) htail with ⟨pre, ps, r2, hr, hm⟩
          exact ⟨some p :: pre, ps, r2, by simp [hr], hm⟩
      cases acc with
      | zero => exact key (by simpa [rankFenGo] using hi)
      | succ n =>
        have hi' : l <:+: digitChar (n + 1) :: pieceChar p :: rankFenGo row' 0 := by
          simpa [rankFenGo] using hi
        rcases List.infix_cons_iff.mp hi' with hp | htail
        · cases l with
          | nil => exact absurd rfl hne
          | cons a l' =>
            rcases hp with ⟨u, hu⟩
            simp only [List.cons_append] at hu
            injection hu with h1 _
            have hm : digitChar (n + 1) ∈ a :: l' := by
              rw [h1]; exact List.mem_cons_self _ _
            exact absurd hm (hnd (n + 1) (by omega) (by simp at hlen; omega))
        · exact key htail

/-- FEN piece letters identify pieces uniquely. -/
theorem pieceChar_inj {a b : Piece} (h : pieceChar a = pieceChar b) : a = b := by
  obtain ⟨ac, ar⟩ := a
  obtain ⟨bc, br⟩ := b
  cases ac <;> cases ar <;> cases bc <;> cases br <;>
    first
    | rfl
    | exact absurd h (by decide)

/-- The source's band constant is exactly the spec's square set: files d, e, f
without the two back ranks. -/
theorem mask_eq_band : BISHOP_MASK = pieceBand := by
  ext s
  simp only [BISHOP_MASK, pieceBand, Finset.mem_filter, Finset.mem_univ, true_and]
  revert s
  decide

/-- The stage-3 test searches for the pattern of the side to move. -/
theorem fenMatch_iff (pos : Chess) :
    fenMatch pos ↔ patternFor pos.turn <:+: board_fen pos.board := by
  cases ht : pos.turn <;> simp [fenMatch, patternFor, ht]

/-- An infix of one rank encoding of the board is an infix of the board FEN. -/
theorem rankFen_in_fen (b : Board) (r : Fin 8) {l : List Char}
    (h : l <:+: rankFen (boardRow b r)) : l <:+: board_fen b := by
  refine joinRanks_contains ?_ h
  exact List.mem_map.mpr ⟨r, by simp, rfl⟩

/-- A nonempty slash-free infix of the board FEN is an infix of some rank
encoding. -/
theorem fen_to_rank (b : Board) {l : List Char} (hne : l ≠ []) (hs : '/' ∉ l)
    (h : l <:+: board_fen b) : ∃ r : Fin 8, l <:+: rankFen (boardRow b r) := by
  rcases joinRanks_decompose hne hs h with ⟨row, hrow, hl⟩
  rcases List.mem_map.mp hrow with ⟨r, _, rfl⟩
  exact ⟨r, hl⟩

/-- The motif pattern, spelled with piece letters. -/
theorem patternFor_chars (t : Color) :
    patternFor t = [pieceChar ⟨t, .bishop⟩, pieceChar ⟨t.opposite, .pawn⟩,
      pieceChar ⟨t.opposite, .pawn⟩, pieceChar ⟨t, .bishop⟩] := by
  cases t <;> rfl

/-- The motif pattern is digit-free. -/
theorem patternFor_noDigits (t : Color) : NoDigits (patternFor t) := by
  intro k h1 h8
  interval_cases k <;> cases t <;> decide

/-- Finding the motif pattern inside a rank encoding forces four contiguous
squares of that rank to hold bishop, pawn, pawn, bishop with the right
colors. -/
theorem motif_of_rankPattern (t : Color) (b : Board) (r : Fin 8)
    (hpat : patternFor t <:+: rankFen (boardRow b r)) :
    ∃ f : Fin 5,
      b ⟨8 * r.val + f.val, by omega⟩ = some ⟨t, .bishop⟩ ∧
      b ⟨8 * r.val + f.val + 1, by omega⟩ = some ⟨t.opposite, .pawn⟩ ∧
      b ⟨8 * r.val + f.val + 2, by omega⟩ = some ⟨t.opposite, .pawn⟩ ∧
      b ⟨8 * r.val + f.val + 3, by omega⟩ = some ⟨t, .bishop⟩ := by
  have hne : patternFor t ≠ [] := by cases t <;> simp [patternFor]
  rcases infix_decode (boardRow b r) 0 (patternFor t) hne (patternFor_noDigits t)
    (by simp [boardRow]) hpat with ⟨pre, ps, r2, hrow, hmap⟩
  rw [patternFor_chars] at hmap
  rcases ps with _ | ⟨q1, _ | ⟨q2, _ | ⟨q3, _ | ⟨q4, ps'⟩⟩⟩⟩
  · simp at hmap
  · simp at hmap
  · simp at hmap
  · simp at hmap
  · simp only [List.map_cons, List.cons.injEq] at hmap
    obtain ⟨e1, e2, e3, e4, hps'⟩ := hmap
    have hps'nil : ps' = [] := by
      rcases ps' with _ | ⟨q5, ps''⟩
      · rfl
      · simp at hps'
    subst hps'nil
    have hq1 : q1 = ⟨t, .bishop⟩ := pieceChar_inj e1
    have hq2 : q2 = ⟨t.opposite, .pawn⟩ := pieceChar_inj e2
    have hq3 : q3 = ⟨t.opposite, .pawn⟩ := pieceChar_inj e3
    have hq4 : q4 = ⟨t, .bishop⟩ := pieceChar_inj e4
    subst hq1; subst hq2; subst hq3; subst hq4
    have hlen := congrArg List.length hrow
    simp [boardRow] at hlen
    rcases pre with _ | ⟨a0, _ | ⟨a1, _ | ⟨a2, _ | ⟨a3, _ | ⟨a4, pre'⟩⟩⟩⟩⟩
    · simp only [boardRow, List.map_cons, List.map_nil, List.nil_append,
        List.cons_append, List.cons.injEq] at hrow
      exact ⟨⟨0, by omega⟩, hrow.1, hrow.2.1, hrow.2.2.1, hrow.2.2.2.1⟩
    · simp only [boardRow, List.map_cons, List.map_nil, List.nil_append,
        List.cons_append, List.cons.injEq] at hrow
      exact ⟨⟨1, by omega⟩, hrow.2.1, hrow.2.2.1, hrow.2.2.2.1, hrow.2.2.2.2.1⟩
    · simp only [boardRow, List.map_cons, List.map_nil, List.nil_append,
        List.cons_append, List.cons.injEq] at hrow
      exact ⟨⟨2, by omega⟩, hrow.2.2.1, hrow.2.2.2.1, hrow.2.2.2.2.1,
        hrow.2.2.2.2.2.1⟩
    · simp only [boardRow, List.map_cons, List.map_nil, List.nil_append,
        List.cons_append, List.cons.injEq] at hrow
      exact ⟨⟨3, by omega⟩, hrow.2.2.2.1, hrow.2.2.2.2.1, hrow.2.2.2.2.2.1,
        hrow.2.2.2.2.2.2.1⟩
    · simp only [boardRow, List.map_cons, List.map_nil, List.nil_append,
        List.cons_append, List.cons.injEq] at hrow
      exact ⟨⟨4, by omega⟩, hrow.2.2.2.2.1, hrow.2.2.2.2.2.1,
        hrow.2.2.2.2.2.2.1, hrow.2.2.2.2.2.2.2.1⟩
    · exfalso
      simp only [List.length_cons] at hlen
      omega

/-- On a board whose pawns stay off the back ranks — true of every position
reached by legal play — the detector confirms exactly when the mover's pattern
occurs inside a single rank encoding of the board FEN. -/
theorem detect_confirmed_iff (pos : Chess) (h : pawnsOffBackRanks pos.board) :
    detect pos = .confirmed ↔
      ∃ r : Fin 8, patternFor pos.turn <:+: rankFen (boardRow pos.board r) := by
  constructor
  · intro hd
    unfold detect at hd
    split_ifs at hd with h1 h2 h3
    exact fen_to_rank pos.board
      (by cases ht : pos.turn <;> simp [patternFor])
      (by cases ht : pos.turn <;> simp [patternFor, ht])
      ((fenMatch_iff pos).mp h3)
  · rintro ⟨r, hr⟩
    rcases motif_of_rankPattern pos.turn pos.board r hr with ⟨f, hb1, hp2, hp3, hb4⟩
    have hpawn_or : pos.board ⟨8 * r.val + f.val + 1, by omega⟩ =
          some ⟨.white, .pawn⟩ ∨
        pos.board ⟨8 * r.val + f.val + 1, by omega⟩ = some ⟨.black, .pawn⟩ := by
      cases hc : pos.turn.opposite
      · rw [hc] at hp2; exact Or.inl hp2
      · rw [hc] at hp2; exact Or.inr hp2
    have hr07 := h _ hpawn_or
    have hrv : 1 ≤ r.val ∧ r.val ≤ 6 := by
      have hdiv : (8 * r.val + f.val + 1) / 8 = r.val := by omega
      rw [hdiv] at hr07
      omega
    have hmem1 : (⟨8 * r.val + f.val, by omega⟩ : Fin 64) ∈ pos.our .bishop := by
      simp [Chess.our, byPiece, Finset.mem_filter, hb1]
    have hmem4 : (⟨8 * r.val + f.val + 3, by omega⟩ : Fin 64) ∈ pos.our .bishop := by
      simp [Chess.our, byPiece, Finset.mem_filter, hb4]
    have hmem2 : (⟨8 * r.val + f.val + 1, by omega⟩ : Fin 64) ∈ pos.their .pawn := by
      simp [Chess.their, byPiece, Finset.mem_filter, hp2]
    have hmem3 : (⟨8 * r.val + f.val + 2, by omega⟩ : Fin 64) ∈ pos.their .pawn := by
      simp [Chess.their, byPiece, Finset.mem_filter, hp3]
    have hbcard : 2 ≤ ((pos.our .bishop) ∩ fromRank r.val).card := by
      exact Finset.one_lt_card.mpr
        ⟨⟨8 * r.val + f.val, by omega⟩,
          Finset.mem_inter.mpr ⟨hmem1, by simp [fromRank]; omega⟩,
          ⟨8 * r.val + f.val + 3, by omega⟩,
          Finset.mem_inter.mpr ⟨hmem4, by simp [fromRank]; omega⟩,
          by intro heq; have := congrArg Fin.val heq; simp at this⟩
    have hpcard : 2 ≤ ((pos.their .pawn) ∩ fromRank r.val).card := by
      exact Finset.one_lt_card.mpr
        ⟨⟨8 * r.val + f.val + 1, by omega⟩,
          Finset.mem_inter.mpr ⟨hmem2, by simp [fromRank]; omega⟩,
          ⟨8 * r.val + f.val + 2, by omega⟩,
          Finset.mem_inter.mpr ⟨hmem3, by simp [fromRank]; omega⟩,
          by intro heq; have := congrArg Fin.val heq; simp at this⟩
    have hrc : ranksCheck pos = true := (ranksCheck_iff pos).mpr
      ⟨r.val, Finset.mem_Icc.mpr ⟨hrv.1, hrv.2⟩, hbcard, hpcard⟩
    have hmask : (pos.our .bishop) ∩ BISHOP_MASK ≠ ∅ := by
      rw [mask_eq_band]
      by_cases hf : f.val ≤ 2
      · exact Finset.ne_empty_of_mem (Finset.mem_inter.mpr
          ⟨hmem4, by simp [pieceBand, Finset.mem_filter]; omega⟩)
      · exact Finset.ne_empty_of_mem (Finset.mem_inter.mpr
          ⟨hmem1, by simp [pieceBand, Finset.mem_filter]; omega⟩)
    have hfm : fenMatch pos := (fenMatch_iff pos).mpr (rankFen_in_fen pos.board r hr)
    unfold detect
    rw [if_neg hmask, if_neg (by simp [hrc]), if_pos hfm]

/-- A board carrying the motif for black: black bishops on c4 and f4 flanking
white pawns on d4 and e4, nothing else. -/
def exBoard1 : Board := fun s =>
  if s.val = 26 then some ⟨.black, .bishop⟩
  else if s.val = 27 then some ⟨.white, .pawn⟩
  else if s.val = 28 then some ⟨.white, .pawn⟩
  else if s.val = 29 then some ⟨.black, .bishop⟩
  else none

/-- The motif position with black to move. -/
def exPos1 : Chess := ⟨exBoard1, .black⟩

/-- C1: for positions reached before a mainline half-move — reached positions
are legal, so no pawn stands on a back rank — the detector returns confirmed,
incrementing the motif counter, exactly when the board FEN holds the mover's
4-character run inside a single rank segment. -/
theorem claim_C1 (pos : Chess) (hlegal : pawnsOffBackRanks pos.board) :
    (detect pos = .confirmed ↔
      ∃ r : Fin 8, patternFor pos.turn <:+: rankFen (boardRow pos.board r)) ∧
    (∀ (c c' : IlVaticanoCounter) (tok : San), c.pos = pos →
      c.san tok = some c' →
      (c'.ilvaticanos = c.ilvaticanos + 1 ↔ detect pos = .confirmed)) := by
  refine ⟨detect_confirmed_iff pos hlegal, ?_⟩
  intro c c' tok hcp hsan
  rw [san_run, hcp] at hsan
  rcases Option.map_eq_some'.mp hsan with ⟨m, hm, hc'⟩
  subst hc'
  rcases hdet : detect pos with _ | _ | _ <;> simp [applyCounts, hdet]

/-- Witness for C1 at a concrete motif position. -/
theorem claim_C1_witness :
    pawnsOffBackRanks exPos1.board ∧ detect exPos1 = .confirmed := by
  have hp : pawnsOffBackRanks exPos1.board := by decide
  exact ⟨hp, (claim_C1 exPos1 hp).1.mpr ⟨⟨3, by omega⟩, by decide⟩⟩

/-- C2: the band constant is exactly the d-e-f files without the back ranks,
and with no mover bishop on it the detector skips: neither the pass counter
nor the motif counter moves, whatever the pawns. -/
theorem claim_C2 :
    BISHOP_MASK = pieceBand ∧
    ∀ c : IlVaticanoCounter, (c.pos.our .bishop) ∩ BISHOP_MASK = ∅ →
      detect c.pos = .skip ∧
      ∀ (tok : San) (c' : IlVaticanoCounter), c.san tok = some c' →
        c'.passed = c.passed ∧ c'.ilvaticanos = c.ilvaticanos := by
  refine ⟨mask_eq_band, ?_⟩
  intro c h1
  have hd : detect c.pos = .skip := by unfold detect; rw [if_pos h1]
  refine ⟨hd, ?_⟩
  intro tok c' hsan
  rw [san_run] at hsan
  rcases Option.map_eq_some'.mp hsan with ⟨m, hm, hc'⟩
  subst hc'
  simp [applyCounts, hd]

/-- Witness for C2 at the starting position, whose bishops all sit on the
back rank. -/
theorem claim_C2_witness :
    ((IlVaticanoCounter.new.pos.our .bishop) ∩ BISHOP_MASK = ∅) ∧
      detect IlVaticanoCounter.new.pos = .skip := by
  have h : (IlVaticanoCounter.new.pos.our .bishop) ∩ BISHOP_MASK = ∅ := by decide
  exact ⟨h, (claim_C2.2 IlVaticanoCounter.new h).1⟩

/-- C3: past stage 1, the detector skips — touching no counter — unless some
rank index 1..6 holds two mover bishops and two opponent pawns; when one
does, the pass counter moves up by exactly one. -/
theorem claim_C3 (c : IlVaticanoCounter)
    (h1 : (c.pos.our .bishop) ∩ BISHOP_MASK ≠ ∅) :
    (¬ rankWitness c.pos →
      detect c.pos = .skip ∧
      ∀ (tok : San) (c' : IlVaticanoCounter), c.san tok = some c' →
        c'.passed = c.passed ∧ c'.ilvaticanos = c.ilvaticanos) ∧
    (rankWitness c.pos →
      ∀ (tok : San) (c' : IlVaticanoCounter), c.san tok = some c' →
        c'.passed = c.passed + 1) := by
  constructor
  · intro hrw
    have hrc : ¬ (ranksCheck c.pos = true) := fun hh => hrw ((ranksCheck_iff _).mp hh)
    have hd : detect c.pos = .skip := by
      unfold detect; rw [if_neg h1, if_pos hrc]
    refine ⟨hd, ?_⟩
    intro tok c' hsan
    rw [san_run] at hsan
    rcases Option.map_eq_some'.mp hsan with ⟨m, hm, hc'⟩
    subst hc'
    simp [applyCounts, hd]
  · intro hrw tok c' hsan
    have hrc : ranksCheck c.pos = true := (ranksCheck_iff _).mpr hrw
    have hd13 : detect c.pos = .confirmed ∨ detect c.pos = .passOnly := by
      unfold detect
      rw [if_neg h1, if_neg (by simp [hrc])]
      by_cases h3 : fenMatch c.pos
      · rw [if_pos h3]; exact Or.inl rfl
      · rw [if_neg h3]; exact Or.inr rfl
    rw [san_run] at hsan
    rcases Option.map_eq_some'.mp hsan with ⟨m, hm, hc'⟩
    subst hc'
    rcases hd13 with hd | hd <;> simp [applyCounts, hd]

/-- A board passing stages 1 and 2 for white: white bishops on d4 and g4,
black pawns on a4 and b4 — same rank, not contiguous. -/
def exBoard3 : Board := fun s =>
  if s.val = 24 then some ⟨.black, .pawn⟩
  else if s.val = 25 then some ⟨.black, .pawn⟩
  else if s.val = 27 then some ⟨.white, .bishop⟩
  else if s.val = 30 then some ⟨.white, .bishop⟩
  else none

/-- The stage-2 position with white to move. -/
def exPos3 : Chess := ⟨exBoard3, .white⟩

/-- A counter holding the stage-2 position. -/
def exCounter3 : IlVaticanoCounter :=
  { games := 0, sans := 0, ilvaticanos := 0, pos := exPos3, passed := 0 }

/-- A move that leaves the position unchanged. -/
def idMove : Move := ⟨fun p => p⟩

/-- A token resolving everywhere to the identity move. -/
def tokOk : San := ⟨fun _ => some idMove⟩

/-- The counter produced by one san step from the stage-2 position. -/
def exResult3 : IlVaticanoCounter :=
  { applyCounts exCounter3 (detect exPos3) with pos := idMove.apply exCounter3.pos }

/-- Witness for C3 at a concrete stage-2 position. -/
theorem claim_C3_witness :
    ((exCounter3.pos.our .bishop) ∩ BISHOP_MASK ≠ ∅) ∧
    rankWitness exCounter3.pos ∧
    exCounter3.san tokOk = some exResult3 ∧
    exResult3.passed = exCounter3.passed + 1 := by
  have h1 : (exCounter3.pos.our .bishop) ∩ BISHOP_MASK ≠ ∅ := by decide
  have h2 : rankWitness exCounter3.pos := ⟨3, by decide, by decide, by decide⟩
  have hsan : exCounter3.san tokOk = some exResult3 := by rw [san_run]; rfl
  exact ⟨h1, h2, hsan, (claim_C3 exCounter3 h1).2 h2 tokOk exResult3 hsan⟩

/-- The counter facts of one successful san step: the half-move counter moves
by exactly one, the game counter is untouched, pass and motif counters move by
zero or one, and the counter inequality is preserved. -/
theorem san_counters {c c' : IlVaticanoCounter} {tok : San}
    (hsan : c.san tok = some c') :
    c'.sans = c.sans + 1 ∧ c'.games = c.games ∧
    c.passed ≤ c'.passed ∧ c'.passed ≤ c.passed + 1 ∧
    c.ilvaticanos ≤ c'.ilvaticanos ∧ c'.ilvaticanos ≤ c.ilvaticanos + 1 ∧
    (countersInv c → countersInv c') := by
  rw [san_run] at hsan
  rcases Option.map_eq_some'.mp hsan with ⟨m, hm, hc'⟩
  subst hc'
  rcases detect c.pos <;> simp [applyCounts, countersInv] <;> omega

/-- Equation lemma: a san item binds the visitor step. -/
theorem runMoves_sanTok (c : IlVaticanoCounter) (tok : San) (rest : List MoveText) :
    runMoves c (.sanTok tok :: rest) = (c.san tok).bind fun c' => runMoves c' rest := by
  rw [runMoves]

/-- Equation lemma: Skip(true) makes the driver drop a side-line whole. -/
theorem runMoves_variation (c : IlVaticanoCounter) (line rest : List MoveText) :
    runMoves c (.variation line :: rest) = runMoves c rest := by
  rw [runMoves]
  rfl

/-- Equation lemma: an empty movetext returns the state. -/
theorem runMoves_nil (c : IlVaticanoCounter) : runMoves c [] = some c := by
  rw [runMoves]

/-- The counter inequality is preserved along any movetext walk. -/
theorem inv_runMoves :
    ∀ (ms : List MoveText) (c c' : IlVaticanoCounter),
      runMoves c ms = some c' → countersInv c → countersInv c' := by
  intro ms
  induction ms with
  | nil =>
    intro c c' hrun hc
    rw [runMoves_nil] at hrun
    cases hrun
    exact hc
  | cons m rest ih =>
    intro c c' hrun hc
    cases m with
    | sanTok tok =>
      rw [runMoves_sanTok] at hrun
      rcases hbind : c.san tok with _ | c₁
      · rw [hbind] at hrun; simp at hrun
      · rw [hbind] at hrun
        simp only [Option.some_bind] at hrun
        exact ih _ _ hrun ((san_counters hbind).2.2.2.2.2.2 hc)
    | variation line =>
      rw [runMoves_variation] at hrun
      exact ih _ _ hrun hc

/-- The counter inequality is preserved across the games of a file. -/
theorem inv_read_all :
    ∀ (gs : List Game) (c c' : IlVaticanoCounter),
      read_all c gs = some c' → countersInv c → countersInv c' := by
  intro gs
  induction gs with
  | nil =>
    intro c c' hrun hc
    simp only [read_all] at hrun
    cases hrun
    exact hc
  | cons g gs' ih =>
    intro c c' hrun hc
    simp only [read_all] at hrun
    rcases hg : runGame c g with _ | c₁
    · rw [hg] at hrun; simp at hrun
    · rw [hg] at hrun
      simp only [Option.some_bind] at hrun
      refine ih _ _ hrun ?_
      unfold runGame at hg
      rcases hmv : runMoves c.begin_game g.moves with _ | c₀
      · rw [hmv] at hg; simp at hg
      · rw [hmv] at hg
        simp only [Option.map_some'] at hg
        cases hg
        have h0 := inv_runMoves _ _ _ hmv hc
        simpa [countersInv, IlVaticanoCounter.end_game] using h0

/-- C4: per callback, the counters never decrease; the half-move counter moves
by exactly one per successful san; the game counter moves by exactly one per
end_game and by nothing else; begin_game touches no counter; the inequality
motif ≤ passes ≤ half-moves holds at the fresh state, is preserved by every
callback, and so holds at the end of any file — games of zero half-moves
included. -/
theorem claim_C4 :
    (∀ (c c' : IlVaticanoCounter) (tok : San), c.san tok = some c' →
      c'.sans = c.sans + 1 ∧ c'.games = c.games ∧
      c.passed ≤ c'.passed ∧ c'.passed ≤ c.passed + 1 ∧
      c.ilvaticanos ≤ c'.ilvaticanos ∧ c'.ilvaticanos ≤ c.ilvaticanos + 1 ∧
      (countersInv c → countersInv c')) ∧
    (∀ c : IlVaticanoCounter,
      c.end_game.games = c.games + 1 ∧ c.end_game.sans = c.sans ∧
      c.end_game.passed = c.passed ∧ c.end_game.ilvaticanos = c.ilvaticanos ∧
      c.begin_game.games = c.games ∧ c.begin_game.sans = c.sans ∧
      c.begin_game.passed = c.passed ∧ c.begin_game.ilvaticanos = c.ilvaticanos) ∧
    countersInv IlVaticanoCounter.new ∧
    (∀ c : IlVaticanoCounter,
      (runGame c ⟨[]⟩).map (fun x => x.games) = some (c.games + 1)) ∧
    (∀ (gs : List Game) (c' : IlVaticanoCounter),
      read_all IlVaticanoCounter.new gs = some c' → countersInv c') := by
  refine ⟨fun c c' tok h => san_counters h,
    fun c => ⟨rfl, rfl, rfl, rfl, rfl, rfl, rfl, rfl⟩,
    ⟨Nat.le_refl 0, Nat.le_refl 0⟩, ?_, ?_⟩
  · intro c
    rw [show runGame c ⟨[]⟩ = (runMoves c.begin_game []).map IlVaticanoCounter.end_game
      from rfl, runMoves_nil]
    rfl
  · intro gs c' h
    exact inv_read_all gs _ c' h ⟨Nat.le_refl 0, Nat.le_refl 0⟩

/-- The counter produced by one san step from the fresh state. -/
def exResW1 : IlVaticanoCounter :=
  { applyCounts IlVaticanoCounter.new (detect IlVaticanoCounter.new.pos) with
      pos := idMove.apply IlVaticanoCounter.new.pos }

/-- The state after one empty game from the fresh state. -/
def exGameRes : IlVaticanoCounter :=
  IlVaticanoCounter.new.begin_game.end_game

/-- Witness for C4: one san step and one zero-move game from the fresh
state. -/
theorem claim_C4_witness :
    IlVaticanoCounter.new.san tokOk = some exResW1 ∧
    exResW1.sans = IlVaticanoCounter.new.sans + 1 ∧
    read_all IlVaticanoCounter.new [⟨[]⟩] = some exGameRes ∧
    countersInv exGameRes := by
  have hsan : IlVaticanoCounter.new.san tokOk = some exResW1 := by rw [san_run]; rfl
  have hread : read_all IlVaticanoCounter.new [⟨[]⟩] = some exGameRes := by
    show (runGame IlVaticanoCounter.new ⟨[]⟩).bind
      (fun c' => read_all c' []) = some exGameRes
    rw [show runGame IlVaticanoCounter.new ⟨[]⟩ =
      (runMoves IlVaticanoCounter.new.begin_game []).map IlVaticanoCounter.end_game
      from rfl, runMoves_nil]
    rfl
  exact ⟨hsan, (claim_C4.1 IlVaticanoCounter.new exResW1 tokOk hsan).1,
    hread, claim_C4.2.2.2.2 [⟨[]⟩] exGameRes hread⟩

/-- A token that never resolves. -/
def tokBad : San := ⟨fun _ => none⟩

/-- C5: a token that does not resolve to a legal move aborts everything: the
san step fails, the movetext walk fails and ignores whatever follows, the file
walk fails, and the whole multi-file run returns no result at all. -/
theorem claim_C5 :
    (∀ (c : IlVaticanoCounter) (tok : San),
      tok.resolve c.pos = none → c.san tok = none) ∧
    (∀ (c : IlVaticanoCounter) (tok : San) (rest : List MoveText),
      tok.resolve c.pos = none → runMoves c (.sanTok tok :: rest) = none) ∧
    (∀ (ms more : List MoveText) (c : IlVaticanoCounter),
      runMoves c ms = none → runMoves c (ms ++ more) = none) ∧
    (∀ (c : IlVaticanoCounter) (g : Game) (gs : List Game),
      runGame c g = none → read_all c (g :: gs) = none) ∧
    (∀ (pre post : List (String × List Game)) (p : String) (gs : List Game),
      read_all IlVaticanoCounter.new gs = none →
      processFiles (pre ++ (p, gs) :: post) = none) := by
  have hsan : ∀ (c : IlVaticanoCounter) (tok : San),
      tok.resolve c.pos = none → c.san tok = none := by
    intro c tok h
    rw [san_run, h]
    rfl
  refine ⟨hsan, ?_, ?_, ?_, ?_⟩
  · intro c tok rest h
    rw [runMoves_sanTok, hsan c tok h]
    rfl
  · intro ms
    induction ms with
    | nil =>
      intro more c h
      rw [runMoves_nil] at h
      simp at h
    | cons m rest ih =>
      intro more c h
      cases m with
      | sanTok tok =>
        rw [List.cons_append, runMoves_sanTok]
        rw [runMoves_sanTok] at h
        rcases hbind : c.san tok with _ | c₁
        · rfl
        · rw [hbind] at h
          simp only [Option.some_bind] at h ⊢
          exact ih more c₁ h
      | variation line =>
        rw [List.cons_append, runMoves_variation]
        rw [runMoves_variation] at h
        exact ih more c h
  · intro c g gs h
    show (runGame c g).bind (fun c' => read_all c' gs) = none
    rw [h]
    rfl
  · intro pre
    induction pre with
    | nil =>
      intro post p gs h
      simp only [List.nil_append, processFiles, h]
      rfl
    | cons q pre' ih =>
      intro post p gs h
      obtain ⟨q1, q2⟩ := q
      rw [List.cons_append]
      show (read_all IlVaticanoCounter.new q2).bind
        (fun st => (processFiles (pre' ++ (p, gs) :: post)).map
          fun rs => (q1, st) :: rs) = none
      rw [ih post p gs h]
      rcases read_all IlVaticanoCounter.new q2 with _ | st <;> rfl

/-- Witness for C5: the failing token kills the san step and the walk. -/
theorem claim_C5_witness :
    IlVaticanoCounter.new.san tokBad = none ∧
    runMoves IlVaticanoCounter.new [.sanTok tokBad] = none :=
  ⟨claim_C5.1 IlVaticanoCounter.new tokBad rfl,
   claim_C5.2.1 IlVaticanoCounter.new tokBad [] rfl⟩

/-- C6: begin_variation always answers Skip(true) and leaves the state alone,
so a movetext walk equals the walk of its variation-free mainline: side-line
moves touch neither the position nor any counter, at any nesting depth. -/
theorem claim_C6 :
    (∀ c : IlVaticanoCounter, c.begin_variation = (c, ⟨true⟩)) ∧
    (∀ (ms : List MoveText) (c : IlVaticanoCounter),
      runMoves c ms = runMoves c (stripVariations ms)) := by
  refine ⟨fun c => rfl, ?_⟩
  intro ms
  induction ms with
  | nil => intro c; rfl
  | cons m rest ih =>
    intro c
    cases m with
    | sanTok tok =>
      rw [show stripVariations (.sanTok tok :: rest) =
        .sanTok tok :: stripVariations rest from rfl,
        runMoves_sanTok, runMoves_sanTok]
      rcases hbind : c.san tok with _ | c₁
      · rfl
      · simp only [Option.some_bind]
        exact ih c₁
    | variation line =>
      rw [show stripVariations (.variation line :: rest) = stripVariations rest
        from rfl, runMoves_variation]
      exact ih c

/-- C7: a san callback evaluates the detector on the position exactly as it
stands before the move — the detector mutates nothing — and leaves as new
position precisely the resolved move applied to that pre-move position, with
no further legality check. -/
theorem claim_C7 (c : IlVaticanoCounter) (tok : San) (m : Move)
    (h : tok.resolve c.pos = some m) :
    c.san tok = some { applyCounts c (detect c.pos) with pos := m.apply c.pos } := by
  rw [san_run, h]
  rfl

/-- Witness for C7 at the fresh state with the identity move. -/
theorem claim_C7_witness :
    IlVaticanoCounter.new.san tokOk = some
      { applyCounts IlVaticanoCounter.new (detect IlVaticanoCounter.new.pos) with
          pos := idMove.apply IlVaticanoCounter.new.pos } :=
  claim_C7 IlVaticanoCounter.new tokOk idMove rfl

/-- C8: a run over files yields one report per file, pairing each file's path
with counters obtained by processing exactly that file's games from a fresh
counter — no state leaks between files. -/
theorem claim_C8 :
    ∀ (fs : List (String × List Game)) (rs : List (String × IlVaticanoCounter)),
      processFiles fs = some rs →
      rs.length = fs.length ∧
      ∀ (i : Nat) (hf : i < fs.length) (hr : i < rs.length),
        (rs.get ⟨i, hr⟩).1 = (fs.get ⟨i, hf⟩).1 ∧
        read_all IlVaticanoCounter.new (fs.get ⟨i, hf⟩).2 =
          some (rs.get ⟨i, hr⟩).2 := by
  intro fs
  induction fs with
  | nil =>
    intro rs h
    simp only [processFiles] at h
    cases h
    exact ⟨rfl, fun i hf => absurd hf (by simp)⟩
  | cons f fs' ih =>
    intro rs h
    obtain ⟨p, gs⟩ := f
    rw [show processFiles ((p, gs) :: fs') =
      (read_all IlVaticanoCounter.new gs).bind fun st =>
        (processFiles fs').map fun rs => (p, st) :: rs from rfl] at h
    rcases hread : read_all IlVaticanoCounter.new gs with _ | st
    · rw [hread] at h; simp at h
    · rw [hread] at h
      simp only [Option.some_bind] at h
      rcases hrest : processFiles fs' with _ | rs'
      · rw [hrest] at h; simp at h
      · rw [hrest] at h
        simp only [Option.map_some'] at h
        cases h
        rcases ih rs' hrest with ⟨hlen, hcomp⟩
        refine ⟨by simp [hlen], ?_⟩
        intro i hf hr
        cases i with
        | zero => exact ⟨rfl, hread⟩
        | succ n =>
          exact hcomp n (by simpa using hf) (by simpa using hr)

/-- Witness for C8 on a one-file run. -/
theorem claim_C8_witness :
    processFiles [("a", [])] = some [("a", IlVaticanoCounter.new)] ∧
    read_all IlVaticanoCounter.new [] = some IlVaticanoCounter.new := by
  have hp : processFiles [("a", [])] = some [("a", IlVaticanoCounter.new)] := rfl
  exact ⟨hp, (claim_C8 [("a", [])] [("a", IlVaticanoCounter.new)] hp).2 0
    (by decide) (by decide) |>.2⟩

/-- C9: begin_game replaces the position — whatever the previous game left —
by the standard initial arrangement and changes nothing else; in particular
every counter is untouched. -/
theorem claim_C9 :
    ∀ c : IlVaticanoCounter,
      c.begin_game = { c with pos := Chess.default } ∧
      c.begin_game.pos = Chess.default ∧
      c.begin_game.games = c.games ∧ c.begin_game.sans = c.sans ∧
      c.begin_game.ilvaticanos = c.ilvaticanos ∧ c.begin_game.passed = c.passed :=
  fun _ => ⟨rfl, rfl, rfl, rfl, rfl, rfl⟩

/-- A move that resets the position to the default arrangement. -/
def moveReset : Move := ⟨fun _ => Chess.default⟩

/-- A token resolving everywhere to the resetting move. -/
def tokOk2 : San := ⟨fun _ => some moveReset⟩

/-- The counter produced by a san step with the resetting move from the fresh
state. -/
def exResW2 : IlVaticanoCounter :=
  { applyCounts IlVaticanoCounter.new (detect IlVaticanoCounter.new.pos) with
      pos := moveReset.apply IlVaticanoCounter.new.pos }

/-- C10: from equal pre-move positions, two san callbacks produce identical
counter increments whatever their tokens; the token shapes only the successor
position. -/
theorem claim_C10 (c₁ c₂ d₁ d₂ : IlVaticanoCounter) (tok₁ tok₂ : San)
    (hpos : c₁.pos = c₂.pos) (h₁ : c₁.san tok₁ = some d₁)
    (h₂ : c₂.san tok₂ = some d₂) :
    delta c₁ d₁ = delta c₂ d₂ := by
  rw [san_run] at h₁ h₂
  rcases Option.map_eq_some'.mp h₁ with ⟨m₁, hm₁, hd₁⟩
  rcases Option.map_eq_some'.mp h₂ with ⟨m₂, hm₂, hd₂⟩
  subst hd₁
  subst hd₂
  rw [hpos]
  rcases detect c₂.pos <;> simp [delta, applyCounts]

/-- Witness for C10: two different tokens from the fresh state. -/
theorem claim_C10_witness :
    delta IlVaticanoCounter.new exResW1 = delta IlVaticanoCounter.new exResW2 :=
  claim_C10 IlVaticanoCounter.new IlVaticanoCounter.new exResW1 exResW2
    tokOk tokOk2 rfl (by rw [san_run]; rfl) (by rw [san_run]; rfl)

end IlVaticano
